import Mathlib

/-!
Shallow embedding of the large-file ingestion pipeline of the
Customer-Support-Automation repository (src/processing/file_processor.py,
with the score calculators referenced from src/app.py), together with
proofs about the pipeline's behaviour.

Modelling conventions:
* A pandas DataFrame row is an association list of (column name, cell value);
  a table is a list of rows.  Cell values are strings, parsed timestamps, or
  the missing marker `na` (pandas NaN/NaT).
* Python exceptions are modelled with `Except`: a raised exception is an
  `Except.error` carrying the information the exception object carries.
* The regex substitution `str.replace(r'@\w+', '', regex=True)` and
  `str.strip()` are embedded as recursive functions on character lists,
  with `\w` read as ASCII alphanumeric or underscore.
* `pd.to_datetime` is embedded shallowly: a timestamp string parses exactly
  when it is a nonempty digit string (its numeric value); what matters for
  the claims is only the success/failure dichotomy and determinism.
* The mutable processor counters `self.processed_chunks` / `self.total_rows`
  are threaded explicitly as a `ChunkState`; the optional progress callback
  is observed through the list of argument tuples it is invoked with.
-/

namespace CSA

/-- `\w` of the Python regex `@\w+` (ASCII reading): letters, digits, underscore. -/
def isWordChar (c : Char) : Bool := c.isAlphanum || c = '_'

/-- Fuel-indexed embedding of `re.sub(r'@\w+', '', s)` (pandas
`str.replace(r'@\w+', '', regex=True)`): scan left to right; an `@` followed
by at least one word character is deleted together with the maximal run of
word characters after it.  The fuel argument makes the recursion structural;
it is always called with fuel at least the list length, where the
fuel-exhaustion branch is unreachable. -/
def removeMAux : Nat → List Char → List Char
  | _, [] => []
  | 0, l => l
  | fuel+1, a :: rest =>
    if a = '@' then
      match rest with
      | [] => ['@']
      | b :: rest2 =>
        if isWordChar b then removeMAux fuel (List.dropWhile isWordChar rest2)
        else '@' :: removeMAux fuel (b :: rest2)
    else a :: removeMAux fuel rest

/-- `re.sub(r'@\w+', '', s)` on a character list. -/
def removeM (l : List Char) : List Char := removeMAux l.length l

/-- Whitespace predicate used by `str.strip()` (ASCII reading). -/
def isWs (c : Char) : Bool := c.isWhitespace

/-- Remove trailing whitespace (the right half of `str.strip()`). -/
def trimEnd (l : List Char) : List Char := (l.reverse.dropWhile isWs).reverse

/-- `str.strip()` on a character list: drop leading then trailing whitespace. -/
def stripChars (l : List Char) : List Char := trimEnd (l.dropWhile isWs)

/-- The text normalizer of the chunk loop (file_processor.py line 91 and the
dask path line 70): `text.str.replace(r'@\w+', '', regex=True).str.strip()`
applied to one string cell. -/
def cleanText (s : String) : String := String.mk (stripChars (removeM s.data))

/-- Cell value of a DataFrame: a string, a parsed timestamp, or missing
(pandas NaN / NaT). -/
inductive Val where
  | s (x : String)
  | ts (n : Nat)
  | na
deriving DecidableEq, Repr

/-- A DataFrame row: association list from column name to cell value. -/
abbrev Row := List (String × Val)

/-- A DataFrame: list of rows. -/
abbrev Table := List Row

/-- The column names of a row, in order. -/
def colNames (r : Row) : List String := r.map Prod.fst

/-- Look a column up in a row (pandas `row[name]`). -/
def getCol (r : Row) (name : String) : Option Val :=
  (r.find? (fun p => p.1 == name)).map Prod.snd

/-- Column assignment `chunk[name] = v` on one row: overwrite the column if
present, otherwise append it as the new last column. -/
def setCol (r : Row) (name : String) (v : Val) : Row :=
  if r.any (fun p => p.1 == name) then
    r.map (fun p => if p.1 == name then (name, v) else p)
  else r ++ [(name, v)]

/-- The exceptions the pipeline can raise, carrying exactly the information
the corresponding Python exception objects carry. -/
inductive ProcError where
  /-- `pd.to_datetime` / parser failure; the exception message carries the
  offending value but neither the file path nor a chunk index. -/
  | parseError (badValue : String)
  /-- KeyError: a required column is absent. -/
  | missingColumn (name : String)
  /-- `pd.concat([])`: ValueError "No objects to concatenate". -/
  | concatError
  /-- `pd.read_csv` with chunksize < 1: ValueError. -/
  | badChunkSize
  /-- A failure of the distributed (Dask) environment. -/
  | daskError (msg : String)
deriving DecidableEq, Repr

/-- Shallow embedding of `pd.to_datetime` on one cell: a timestamp string is
parseable exactly when it is a nonempty digit string. -/
def parseTimestamp (s : String) : Option Nat :=
  if s.data ≠ [] && s.data.all Char.isDigit then
    some (s.data.foldl (fun n c => n * 10 + (c.toNat - 48)) 0)
  else none

/-- `series.str.replace(...).str.strip()` on one cell: pandas `.str` methods
map string cells and send non-string or missing cells to NaN. -/
def cleanVal : Val → Val
  | .s x => .s (cleanText x)
  | _ => .na

/-- `chunk['created_at'] = pd.to_datetime(chunk['created_at'])` on one row:
string cells parse or raise; missing stays missing (NaT); already-parsed
timestamps are unchanged; an absent column is a KeyError. -/
def parseRowTs (r : Row) : Except ProcError Row :=
  match getCol r "created_at" with
  | none => .error (.missingColumn "created_at")
  | some (.s x) =>
    match parseTimestamp x with
    | some n => .ok (setCol r "created_at" (.ts n))
    | none => .error (.parseError x)
  | some (.ts n) => .ok (setCol r "created_at" (.ts n))
  | some .na => .ok (setCol r "created_at" .na)

/-- `chunk['clean_text'] = chunk['text'].str.replace(...).str.strip()` on one
row; an absent `text` column is a KeyError. -/
def addCleanText (r : Row) : Except ProcError Row :=
  match getCol r "text" with
  | none => .error (.missingColumn "text")
  | some v => .ok (setCol r "clean_text" (cleanVal v))

/-- The per-row transformation of the chunk loop (file_processor.py lines
89-91): parse the timestamp column, then populate `clean_text`. -/
def processRow (r : Row) : Except ProcError Row :=
  match parseRowTs r with
  | .error e => .error e
  | .ok r1 => addCleanText r1

/-- Whether an `Except` value is a success. -/
def exOk : Except ProcError Row → Bool
  | .ok _ => true
  | .error _ => false

/-- Left-to-right effectful map: the first failing element's error is the
error of the whole traversal (pandas raises at the first bad value). -/
def mapE (f : Row → Except ProcError Row) : List Row → Except ProcError (List Row)
  | [] => .ok []
  | a :: l =>
    match f a with
    | .error e => .error e
    | .ok b =>
      match mapE f l with
      | .error e => .error e
      | .ok bs => .ok (b :: bs)

/-- Fuel-indexed chunking of a row list into consecutive chunks of `c` rows
(`pd.read_csv(filepath, chunksize=c)`); fuel is always at least the list
length. -/
def chunksOfAux : Nat → Nat → List Row → List (List Row)
  | _, _, [] => []
  | 0, _, l => [l]
  | fuel+1, c, x :: xs => (x :: xs.take (c - 1)) :: chunksOfAux fuel c (xs.drop (c - 1))

/-- The sequence of chunks `pd.read_csv(filepath, chunksize=c)` yields for a
file whose data rows are `l`: consecutive slices of `c` rows (the last one
possibly shorter); a file with zero data rows yields zero chunks. -/
def chunksOf (c : Nat) (l : List Row) : List (List Row) := chunksOfAux l.length c l

/-- The mutable counters of `LargeFileProcessor`
(`self.processed_chunks`, `self.total_rows`); they persist across calls on
the same instance. -/
structure ChunkState where
  processed_chunks : Nat
  total_rows : Nat
deriving DecidableEq, Repr

/-- The observable trace of the progress callback: the list of
`(chunk index, chunk row count, cumulative row count)` argument tuples it is
invoked with, in invocation order. -/
abbrev CallLog := List (Nat × Nat × Nat)

/-- The chunk loop of `_process_with_chunks` (lines 88-101): process each
chunk in order, thread the counters, and invoke the callback (when supplied)
after each chunk with `(i, len(chunk), self.total_rows)`.  Returns the list
of processed chunks, the final counters, and the callback trace. -/
def runChunks (cb : Bool) : List (List Row) → Nat → ChunkState →
    Except ProcError (List Table × ChunkState × CallLog)
  | [], _, st => .ok ([], st, [])
  | ch :: rest, i, st =>
    match mapE processRow ch with
    | .error e => .error e
    | .ok pch =>
      let st1 : ChunkState := ⟨st.processed_chunks + 1, st.total_rows + ch.length⟩
      match runChunks cb rest (i + 1) st1 with
      | .error e => .error e
      | .ok (tbls, stF, log) =>
        .ok (pch :: tbls, stF, (if cb then [(i, ch.length, st1.total_rows)] else []) ++ log)

/-- `pd.concat(chunks, ignore_index=True)`: concatenation of the chunk
tables; on an empty list it raises ValueError "No objects to concatenate". -/
def concatTables : List Table → Except ProcError Table
  | [] => .error .concatError
  | t :: ts => .ok ((t :: ts).flatten)

/-- `_process_with_chunks(filepath, callback_func)` (lines 81-110): read the
file in chunks of `chunkSize`, transform each chunk, report progress, and
concatenate.  `st` is the instance's counter state on entry, `cb` whether a
callback was supplied; `filepath` is used only for logging and appears in no
output.  Any exception propagates to the caller unchanged (the except block
re-raises). -/
def process_with_chunks (chunkSize : Nat) (st : ChunkState) (filepath : String)
    (file : List Row) (cb : Bool) : Except ProcError (Table × ChunkState × CallLog) :=
  let _ := filepath
  if chunkSize = 0 then .error .badChunkSize
  else
    match runChunks cb (chunksOf chunkSize file) 0 st with
    | .error e => .error e
    | .ok (tbls, stF, log) =>
      match concatTables tbls with
      | .error e => .error e
      | .ok t => .ok (t, stF, log)

/-- The body of the `try` block of `_process_with_dask` (lines 61-75): read
the whole file through Dask, apply the same timestamp parse and text
normalization, and materialize.  `envOk` models whether the distributed
environment works; when it does, the transform itself can still raise on bad
data, at the first bad value. -/
def daskAttempt (envOk : Bool) (file : List Row) : Except ProcError Table :=
  if envOk then mapE processRow file else .error (.daskError "cluster unavailable")

/-- `_process_with_dask(filepath)` (lines 59-79): try the distributed read;
on success the instance counters are untouched and no callback fires; on any
exception, log and fall back to `_process_with_chunks(filepath)` — which, as
called, receives no callback. -/
def process_with_dask (envOk : Bool) (chunkSize : Nat) (st : ChunkState)
    (filepath : String) (file : List Row) :
    Except ProcError (Table × ChunkState × CallLog) :=
  match daskAttempt envOk file with
  | .ok t => .ok (t, st, [])
  | .error _ => process_with_chunks chunkSize st filepath file false

/-- `process_large_csv(filepath, callback_func)` (lines 45-57): if the
measured file size exceeds 100 MB take the distributed path (which never
receives the callback), otherwise the chunked path with the callback. -/
def process_large_csv (envOk : Bool) (sizeMB : Nat) (chunkSize : Nat)
    (st : ChunkState) (filepath : String) (file : List Row) (cb : Bool) :
    Except ProcError (Table × ChunkState × CallLog) :=
  if 100 < sizeMB then process_with_dask envOk chunkSize st filepath file
  else process_with_chunks chunkSize st filepath file cb

/-- Specification of the callback trace the chunk loop produces from start
index `i0` and prior cumulative row count `tot0`. -/
def logSpec (i0 tot0 : Nat) : List (List Row) → CallLog
  | [] => []
  | ch :: rest => (i0, ch.length, tot0 + ch.length) :: logSpec (i0 + 1) (tot0 + ch.length) rest

/-- Last element of a list, if any. -/
def myLast {α : Type} : List α → Option α
  | [] => none
  | [a] => some a
  | _ :: b :: l => myLast (b :: l)

/-- No `@` immediately followed by a word character occurs in the list: no
residual mention token. -/
def NoMention (l : List Char) : Prop :=
  l.Chain' fun x y => ¬(x = '@' ∧ isWordChar y = true)

instance (l : List Char) : Decidable (NoMention l) := by
  unfold NoMention; infer_instance

/-- Neither end of the list is whitespace. -/
def noEdgeWs (l : List Char) : Bool :=
  (l.head?.all fun c => !isWs c) && (l.reverse.head?.all fun c => !isWs c)

/-- Does `p` occur as a leading segment of the second list? -/
def leadsWith : List Char → List Char → Bool
  | [], _ => true
  | _ :: _, [] => false
  | a :: p, b :: l => a == b && leadsWith p l

/-- Substring occurrence test. -/
def hasSub (p : List Char) : List Char → Bool
  | [] => leadsWith p []
  | b :: l => leadsWith p (b :: l) || hasSub p l

/-- Modelled from the spec: the urgency-keyword policy table of the missing
`LargeFileProcessor._calculate_urgency_score` (called from src/app.py line
156 but defined nowhere in the repository).  Per spec §4.2 the score
increments for each urgency-indicating keyword present in the text. -/
def urgencyKeywords : List (String × Nat) :=
  [("urgent", 3), ("asap", 3), ("immediately", 3), ("critical", 3),
   ("emergency", 3), ("right away", 2), ("help", 1)]

/-- Modelled from the spec: the frustration keyword table of the missing
`LargeFileProcessor._calculate_frustration_score` (called from src/app.py
line 157 but defined nowhere in the repository). -/
def frustrationKeywords : List (String × Nat) :=
  [("terrible", 3), ("awful", 3), ("worst", 3), ("ridiculous", 2),
   ("unacceptable", 3), ("angry", 2), ("frustrated", 2), ("still not", 1)]

/-- Sum of the weights of the keywords occurring in the text. -/
def keywordScore (table : List (String × Nat)) (text : String) : Nat :=
  (table.map fun kw => if hasSub kw.1.data text.data then kw.2 else 0).sum

/-- Modelled from the spec: `_calculate_urgency_score` — a pure keyword
heuristic over normalized text; empty or missing text scores 0 and nothing
is thrown (the function is total). -/
def calculate_urgency_score (text : Option String) : Nat :=
  match text with
  | none => 0
  | some t => keywordScore urgencyKeywords t

/-- Modelled from the spec: `_calculate_frustration_score` — as the urgency
score but over the frustration keyword table. -/
def calculate_frustration_score (text : Option String) : Nat :=
  match text with
  | none => 0
  | some t => keywordScore frustrationKeywords t

/-! ### Helper lemmas: `dropWhile`, `trimEnd`, `stripChars` -/

lemma dw_head (p : Char → Bool) : ∀ (l : List Char) (c : Char),
    (l.dropWhile p).head? = some c → p c = false := by
  intro l
  induction l with
  | nil => intro c h; simp [List.dropWhile] at h
  | cons a t ih =>
    intro c h
    rw [List.dropWhile_cons] at h
    by_cases hpa : p a
    · rw [if_pos hpa] at h; exact ih c h
    · rw [if_neg hpa] at h
      simp at h
      rw [← h]
      simpa using hpa

lemma dw_eq_self (p : Char → Bool) (l : List Char)
    (h : ∀ c, l.head? = some c → p c = false) : l.dropWhile p = l := by
  cases l with
  | nil => rfl
  | cons a t =>
    have := h a rfl
    rw [List.dropWhile_cons, if_neg (by simp [this])]

lemma dw_dw (p : Char → Bool) (l : List Char) :
    (l.dropWhile p).dropWhile p = l.dropWhile p :=
  dw_eq_self p (l.dropWhile p) (dw_head p l)

lemma revPre (l₁ l₂ : List Char) (h : l₁ <:+ l₂) : l₁.reverse <+: l₂.reverse := by
  obtain ⟨t, rfl⟩ := h
  exact ⟨t.reverse, by rw [← List.reverse_append]⟩

lemma trimEnd_isPre (l : List Char) : trimEnd l <+: l := by
  have h := revPre (l.reverse.dropWhile isWs) l.reverse (List.dropWhile_suffix isWs)
  rwa [List.reverse_reverse] at h

lemma pre_head (l₁ l₂ : List Char) (h : l₁ <+: l₂) (hne : l₁ ≠ []) :
    l₁.head? = l₂.head? := by
  obtain ⟨t, rfl⟩ := h
  cases l₁ with
  | nil => exact absurd rfl hne
  | cons a l => rfl

lemma trimEnd_trimEnd (l : List Char) : trimEnd (trimEnd l) = trimEnd l := by
  unfold trimEnd
  rw [List.reverse_reverse, dw_dw]

lemma strip_noLead (l : List Char) : (stripChars l).dropWhile isWs = stripChars l := by
  unfold stripChars
  by_cases hne : trimEnd (l.dropWhile isWs) = []
  · rw [hne]; rfl
  · apply dw_eq_self
    intro c hc
    rw [pre_head _ _ (trimEnd_isPre (l.dropWhile isWs)) hne] at hc
    exact dw_head isWs l c hc

lemma stripChars_idem (l : List Char) : stripChars (stripChars l) = stripChars l := by
  show trimEnd ((stripChars l).dropWhile isWs) = stripChars l
  rw [strip_noLead]
  exact trimEnd_trimEnd (l.dropWhile isWs)

lemma stripChars_head (l : List Char) (c : Char)
    (h : (stripChars l).head? = some c) : isWs c = false := by
  rw [← strip_noLead] at h
  exact dw_head isWs (stripChars l) c h

lemma stripChars_revHead (l : List Char) (c : Char)
    (h : (stripChars l).reverse.head? = some c) : isWs c = false := by
  unfold stripChars trimEnd at h
  rw [List.reverse_reverse] at h
  exact dw_head isWs ((l.dropWhile isWs).reverse) c h

/-! ### Helper lemmas: mention removal -/

lemma rmAux_word (n : Nat) (b : Char) (t2 : List Char) (hb : isWordChar b = true) :
    removeMAux (n+1) ('@' :: b :: t2) = removeMAux n (List.dropWhile isWordChar t2) := by
  simp [removeMAux, hb]

lemma rmAux_noWord (n : Nat) (b : Char) (t2 : List Char) (hb : isWordChar b = false) :
    removeMAux (n+1) ('@' :: b :: t2) = '@' :: removeMAux n (b :: t2) := by
  simp [removeMAux, hb]

lemma rmAux_single (n : Nat) : removeMAux (n+1) ['@'] = ['@'] := by
  simp [removeMAux]

lemma rmAux_cons (n : Nat) (a : Char) (t : List Char) (ha : ¬ a = '@') :
    removeMAux (n+1) (a :: t) = a :: removeMAux n t := by
  simp [removeMAux, ha]

lemma rm_head : ∀ (fuel : Nat) (l : List Char),
    (∀ c, l.head? = some c → isWordChar c = false) →
    ∀ c, (removeMAux fuel l).head? = some c → isWordChar c = false := by
  intro fuel
  induction fuel with
  | zero =>
    intro l h c hc
    cases l with
    | nil => simp [removeMAux] at hc
    | cons a t => exact h c hc
  | succ n ih =>
    intro l h c hc
    cases l with
    | nil => simp [removeMAux] at hc
    | cons a t =>
      by_cases ha : a = '@'
      · subst ha
        cases t with
        | nil =>
          rw [rmAux_single] at hc
          simp at hc
          rw [← hc]
          decide
        | cons b t2 =>
          by_cases hb : isWordChar b
          · rw [rmAux_word n b t2 hb] at hc
            exact ih (List.dropWhile isWordChar t2)
              (fun d hd => dw_head isWordChar t2 d hd) c hc
          · rw [rmAux_noWord n b t2 (by simpa using hb)] at hc
            simp at hc
            rw [← hc]
            decide
      · rw [rmAux_cons n a t ha] at hc
        simp at hc
        rw [← hc]
        exact h a rfl

lemma rm_nm : ∀ (fuel : Nat) (l : List Char), l.length ≤ fuel →
    NoMention (removeMAux fuel l) := by
  intro fuel
  induction fuel with
  | zero =>
    intro l h
    have : l = [] := List.length_eq_zero.mp (Nat.le_zero.mp h)
    subst this
    simp [removeMAux, NoMention]
  | succ n ih =>
    intro l h
    cases l with
    | nil => simp [removeMAux, NoMention]
    | cons a t =>
      by_cases ha : a = '@'
      · subst ha
        cases t with
        | nil =>
          rw [rmAux_single]
          simp [NoMention]
        | cons b t2 =>
          by_cases hb : isWordChar b
          · rw [rmAux_word n b t2 hb]
            apply ih
            have h1 : (List.dropWhile isWordChar t2).length ≤ t2.length :=
              (List.dropWhile_sublist isWordChar).length_le
            simp at h
            omega
          · rw [rmAux_noWord n b t2 (by simpa using hb)]
            rw [NoMention, List.chain'_cons']
            constructor
            · intro y hy
              have : isWordChar y = false :=
                rm_head n (b :: t2) (fun c hc => by
                  simp at hc; rw [← hc]; simpa using hb) y hy
              simp [this]
            · apply ih
              simp at h ⊢
              omega
      · rw [rmAux_cons n a t ha]
        rw [NoMention, List.chain'_cons']
        constructor
        · intro y hy
          simp [ha]
        · apply ih
          simp at h ⊢
          omega

lemma rm_id : ∀ (fuel : Nat) (l : List Char), NoMention l → removeMAux fuel l = l := by
  intro fuel
  induction fuel with
  | zero =>
    intro l _
    cases l with
    | nil => rfl
    | cons a t => rfl
  | succ n ih =>
    intro l h
    cases l with
    | nil => rfl
    | cons a t =>
      by_cases ha : a = '@'
      · subst ha
        cases t with
        | nil => rfl
        | cons b t2 =>
          rw [NoMention, List.chain'_cons'] at h
          have hb : isWordChar b = false := by
            have := h.1 b rfl
            simpa using this
          rw [rmAux_noWord n b t2 hb, ih (b :: t2) h.2]
      · rw [rmAux_cons n a t ha]
        rw [NoMention, List.chain'_cons'] at h
        rw [ih t h.2]

lemma removeM_nm (l : List Char) : NoMention (removeM l) :=
  rm_nm l.length l (Nat.le_refl _)

lemma removeM_id (l : List Char) (h : NoMention l) : removeM l = l :=
  rm_id l.length l h

lemma nm_strip (l : List Char) (h : NoMention l) : NoMention (stripChars l) := by
  rw [NoMention] at h ⊢
  have h1 : (l.dropWhile isWs).Chain' fun x y => ¬(x = '@' ∧ isWordChar y = true) :=
    List.Chain'.suffix h (List.dropWhile_suffix isWs)
  exact List.Chain'.prefix h1 (trimEnd_isPre (l.dropWhile isWs))

/-! ### Helper lemmas: chunking -/

lemma chunksAux_flatten : ∀ (fuel c : Nat) (l : List Row), l.length ≤ fuel →
    (chunksOfAux fuel c l).flatten = l := by
  intro fuel
  induction fuel with
  | zero =>
    intro c l h
    have : l = [] := List.length_eq_zero.mp (Nat.le_zero.mp h)
    subst this
    rfl
  | succ n ih =>
    intro c l h
    cases l with
    | nil => rfl
    | cons x xs =>
      show ((x :: xs.take (c - 1)) :: chunksOfAux n c (xs.drop (c - 1))).flatten = x :: xs
      rw [List.flatten_cons]
      rw [ih c (xs.drop (c - 1)) (by simp at h ⊢; omega)]
      simp [List.take_append_drop]

lemma chunksOf_flatten (c : Nat) (l : List Row) : (chunksOf c l).flatten = l :=
  chunksAux_flatten l.length c l (Nat.le_refl _)

lemma chunksAux_mem_ne : ∀ (fuel c : Nat) (l : List Row) (ch : List Row),
    ch ∈ chunksOfAux fuel c l → ch ≠ [] := by
  intro fuel
  induction fuel with
  | zero =>
    intro c l ch hm
    cases l with
    | nil => simp [chunksOfAux] at hm
    | cons x xs =>
      simp [chunksOfAux] at hm
      subst hm
      simp
  | succ n ih =>
    intro c l ch hm
    cases l with
    | nil => simp [chunksOfAux] at hm
    | cons x xs =>
      simp only [chunksOfAux, List.mem_cons] at hm
      cases hm with
      | inl h => subst h; simp
      | inr h => exact ih c (xs.drop (c - 1)) ch h

lemma chunksOf_mem_ne (c : Nat) (l : List Row) (ch : List Row)
    (hm : ch ∈ chunksOf c l) : ch ≠ [] :=
  chunksAux_mem_ne l.length c l ch hm

lemma chunksOf_ne (c : Nat) (l : List Row) (h : l ≠ []) : chunksOf c l ≠ [] := by
  cases l with
  | nil => exact absurd rfl h
  | cons x xs => simp [chunksOf, chunksOfAux]

/-! ### Helper lemmas: effectful map -/

lemma mapE_append (f : Row → Except ProcError Row) (l₁ l₂ : List Row) :
    mapE f (l₁ ++ l₂) =
      match mapE f l₁ with
      | .error e => .error e
      | .ok b1 =>
        match mapE f l₂ with
        | .error e => .error e
        | .ok b2 => .ok (b1 ++ b2) := by
  induction l₁ with
  | nil =>
    show mapE f l₂ = _
    cases mapE f l₂ <;> rfl
  | cons a t ih =>
    show mapE f (a :: (t ++ l₂)) = _
    simp only [mapE]
    cases f a with
    | error e => rfl
    | ok b =>
      rw [ih]
      cases mapE f t with
      | error e => rfl
      | ok bt => cases mapE f l₂ <;> rfl

lemma mapE_forall₂ (f : Row → Except ProcError Row) :
    ∀ (l : List Row) (bs : List Row),
      mapE f l = .ok bs ↔ List.Forall₂ (fun a b => f a = .ok b) l bs := by
  intro l
  induction l with
  | nil =>
    intro bs
    constructor
    · intro h
      simp only [mapE] at h
      injection h with h
      subst h
      exact .nil
    · intro h
      cases h
      rfl
  | cons a t ih =>
    intro bs
    constructor
    · intro h
      simp only [mapE] at h
      cases hfa : f a with
      | error e => rw [hfa] at h; exact Except.noConfusion h
      | ok b =>
        rw [hfa] at h
        cases hmt : mapE f t with
        | error e => rw [hmt] at h; exact Except.noConfusion h
        | ok bt =>
          rw [hmt] at h
          injection h with h
          subst h
          exact List.Forall₂.cons hfa ((ih bt).mp hmt)
    · intro h
      cases h with
      | cons ha ht =>
        simp only [mapE, ha, (ih _).mpr ht]

lemma mapE_ok_of_all (f : Row → Except ProcError Row) :
    ∀ (l : List Row), (∀ a ∈ l, exOk (f a) = true) →
      ∃ bs, mapE f l = .ok bs ∧ bs.length = l.length := by
  intro l
  induction l with
  | nil => intro _; exact ⟨[], rfl, rfl⟩
  | cons a t ih =>
    intro h
    cases hfa : f a with
    | error e =>
      have := h a (by simp)
      rw [hfa] at this
      exact absurd this (by simp [exOk])
    | ok b =>
      obtain ⟨bs, hbs, hlen⟩ := ih (fun x hx => h x (by simp [hx]))
      exact ⟨b :: bs, by simp only [mapE, hfa, hbs], by simp [hlen]⟩

lemma mapE_err_of_bad (f : Row → Except ProcError Row) :
    ∀ (l : List Row), l.all (fun a => exOk (f a)) = false →
      ∃ e, mapE f l = .error e := by
  intro l
  induction l with
  | nil => intro h; simp at h
  | cons a t ih =>
    intro h
    cases hfa : f a with
    | error e => exact ⟨e, by simp only [mapE, hfa]⟩
    | ok b =>
      have ht : t.all (fun a => exOk (f a)) = false := by
        simp only [List.all_cons, hfa] at h
        simpa [exOk] using h
      obtain ⟨e, he⟩ := ih ht
      exact ⟨e, by simp only [mapE, hfa, he]⟩

/-! ### Helper lemmas: the chunk loop -/

lemma runChunks_flatten (cb : Bool) : ∀ (chs : List (List Row)) (i : Nat) (st : ChunkState),
    Except.map (fun x => x.1.flatten) (runChunks cb chs i st) = mapE processRow chs.flatten := by
  intro chs
  induction chs with
  | nil => intro i st; rfl
  | cons ch rest ih =>
    intro i st
    rw [List.flatten_cons, mapE_append]
    simp only [runChunks]
    cases h1 : mapE processRow ch with
    | error e => rfl
    | ok pch =>
      have ihr := ih (i + 1) ⟨st.processed_chunks + 1, st.total_rows + ch.length⟩
      cases h2 : runChunks cb rest (i + 1) ⟨st.processed_chunks + 1, st.total_rows + ch.length⟩ with
      | error e =>
        rw [h2] at ihr
        rw [← ihr]
        rfl
      | ok tri =>
        rw [h2] at ihr
        rw [← ihr]
        simp [Except.map, List.flatten_cons]

lemma runChunks_len (cb : Bool) : ∀ (chs : List (List Row)) (i : Nat) (st : ChunkState)
    (tbls : List Table) (st2 : ChunkState) (log : CallLog),
    runChunks cb chs i st = .ok (tbls, st2, log) → tbls.length = chs.length := by
  intro chs
  induction chs with
  | nil =>
    intro i st tbls st2 log h
    simp only [runChunks] at h
    injection h with h
    have htb : tbls = [] := by
      have := congrArg Prod.fst h
      simpa using this.symm
    subst htb
    rfl
  | cons ch rest ih =>
    intro i st tbls st2 log h
    simp only [runChunks] at h
    cases h1 : mapE processRow ch with
    | error e => rw [h1] at h; exact Except.noConfusion h
    | ok pch =>
      rw [h1] at h
      cases h2 : runChunks cb rest (i + 1) ⟨st.processed_chunks + 1, st.total_rows + ch.length⟩ with
      | error e => rw [h2] at h; exact Except.noConfusion h
      | ok tri =>
        rw [h2] at h
        injection h with h
        have htb : tbls = pch :: tri.1 := by
          have := congrArg Prod.fst h
          simpa using this.symm
        subst htb
        simp [ih (i + 1) _ tri.1 tri.2.1 tri.2.2 (by rw [h2])]

lemma runChunks_false_log : ∀ (chs : List (List Row)) (i : Nat) (st : ChunkState)
    (tbls : List Table) (st2 : ChunkState) (log : CallLog),
    runChunks false chs i st = .ok (tbls, st2, log) → log = [] := by
  intro chs
  induction chs with
  | nil =>
    intro i st tbls st2 log h
    simp only [runChunks] at h
    injection h with h
    exact (congrArg (fun p => p.2.2) h).symm
  | cons ch rest ih =>
    intro i st tbls st2 log h
    simp only [runChunks] at h
    cases h1 : mapE processRow ch with
    | error e => rw [h1] at h; exact Except.noConfusion h
    | ok pch =>
      rw [h1] at h
      cases h2 : runChunks false rest (i + 1) ⟨st.processed_chunks + 1, st.total_rows + ch.length⟩ with
      | error e => rw [h2] at h; exact Except.noConfusion h
      | ok tri =>
        rw [h2] at h
        injection h with h
        have hl : log = tri.2.2 := by
          have := congrArg (fun p => p.2.2) h
          simpa using this.symm
        rw [hl]
        exact ih (i + 1) _ tri.1 tri.2.1 tri.2.2 (by rw [h2])

lemma runChunks_ok_all (cb : Bool) : ∀ (chs : List (List Row)) (i : Nat) (st : ChunkState),
    (∀ r ∈ chs.flatten, exOk (processRow r) = true) →
    ∃ tbls, runChunks cb chs i st =
        .ok (tbls,
             ⟨st.processed_chunks + chs.length, st.total_rows + (chs.map List.length).sum⟩,
             if cb then logSpec i st.total_rows chs else []) ∧
      List.Forall₂ (fun ch pch => mapE processRow ch = .ok pch) chs tbls := by
  intro chs
  induction chs with
  | nil =>
    intro i st _
    refine ⟨[], ?_, .nil⟩
    simp only [runChunks, logSpec]
    cases st
    simp
  | cons ch rest ih =>
    intro i st h
    have hch : ∀ r ∈ ch, exOk (processRow r) = true := by
      intro r hr
      exact h r (by rw [List.flatten_cons]; exact List.mem_append_left _ hr)
    obtain ⟨pch, hpch, _⟩ := mapE_ok_of_all processRow ch hch
    obtain ⟨tbls, htb, hf2⟩ :=
      ih (i + 1) ⟨st.processed_chunks + 1, st.total_rows + ch.length⟩
        (fun r hr => h r (by rw [List.flatten_cons]; exact List.mem_append_right _ hr))
    refine ⟨pch :: tbls, ?_, .cons hpch hf2⟩
    simp only [runChunks, hpch, htb]
    cases cb <;>
      simp [logSpec, List.length_cons, List.map_cons, List.sum_cons] <;>
      constructor <;> omega

/-! ### Helper lemmas: the callback trace specification -/

lemma logSpec_len : ∀ (chs : List (List Row)) (i t : Nat),
    (logSpec i t chs).length = chs.length := by
  intro chs
  induction chs with
  | nil => intro i t; rfl
  | cons ch rest ih => intro i t; simp [logSpec, ih]

lemma logSpec_fst : ∀ (chs : List (List Row)) (i t : Nat),
    (logSpec i t chs).map (fun e => e.1) = List.range' i chs.length := by
  intro chs
  induction chs with
  | nil => intro i t; rfl
  | cons ch rest ih =>
    intro i t
    rw [logSpec, List.map_cons, ih, List.length_cons, List.range'_succ]

lemma logSpec_snd : ∀ (chs : List (List Row)) (i t : Nat),
    (logSpec i t chs).map (fun e => e.2.1) = chs.map List.length := by
  intro chs
  induction chs with
  | nil => intro i t; rfl
  | cons ch rest ih =>
    intro i t
    rw [logSpec, List.map_cons, ih, List.map_cons]

lemma logSpec_chain : ∀ (chs : List (List Row)) (i t : Nat),
    (∀ ch ∈ chs, ch ≠ []) →
    List.Chain' (fun a b : Nat × Nat × Nat => a.2.2 < b.2.2) (logSpec i t chs) ∧
      ∀ e, (logSpec i t chs).head? = some e → t < e.2.2 := by
  intro chs
  induction chs with
  | nil =>
    intro i t _
    exact ⟨List.chain'_nil, by intro e he; simp [logSpec] at he⟩
  | cons ch rest ih =>
    intro i t hne
    have hlen : 0 < ch.length := List.length_pos.mpr (hne ch (by simp))
    obtain ⟨hc, hh⟩ := ih (i + 1) (t + ch.length) (fun x hx => hne x (by simp [hx]))
    constructor
    · rw [logSpec, List.chain'_cons']
      exact ⟨fun y hy => hh y hy, hc⟩
    · intro e he
      rw [logSpec] at he
      simp at he
      rw [← he]
      simpa using hlen

lemma logSpec_last : ∀ (chs : List (List Row)) (i t : Nat), chs ≠ [] →
    ∃ k m, myLast (logSpec i t chs) = some (k, m, t + (chs.map List.length).sum) := by
  intro chs
  induction chs with
  | nil => intro i t h; exact absurd rfl h
  | cons ch rest ih =>
    intro i t _
    cases rest with
    | nil =>
      refine ⟨i, ch.length, ?_⟩
      simp [logSpec, myLast]
    | cons ch2 r2 =>
      obtain ⟨k, m, hk⟩ := ih (i + 1) (t + ch.length) (by simp)
      refine ⟨k, m, ?_⟩
      rw [logSpec, logSpec]
      rw [logSpec] at hk
      show myLast ((i + 1, ch2.length, t + ch.length + ch2.length) ::
        logSpec (i + 1 + 1) (t + ch.length + ch2.length) r2) = _
      rw [hk]
      simp [List.map_cons, List.sum_cons]
      omega

/-! ### Helper lemmas: `process_with_chunks` -/

lemma pwc_table (c : Nat) (st : ChunkState) (fp : String) (file : List Row) (cb : Bool)
    (hc : c ≠ 0) (hne : file ≠ []) :
    Except.map (fun x => x.1) (process_with_chunks c st fp file cb) =
      mapE processRow file := by
  unfold process_with_chunks
  rw [if_neg hc]
  have h := runChunks_flatten cb (chunksOf c file) 0 st
  rw [chunksOf_flatten] at h
  cases hr : runChunks cb (chunksOf c file) 0 st with
  | error e =>
    rw [hr] at h
    exact h
  | ok tri =>
    obtain ⟨tbls, stF, lg⟩ := tri
    rw [hr] at h
    have hlen := runChunks_len cb (chunksOf c file) 0 st tbls stF lg hr
    cases tbls with
    | nil =>
      have h0 : (chunksOf c file).length = 0 := hlen.symm
      exact absurd (List.length_eq_zero.mp h0) (chunksOf_ne c file hne)
    | cons t ts =>
      rw [← h]
      rfl

lemma pwc_ok_inv (c : Nat) (st : ChunkState) (fp : String) (file : List Row) (cb : Bool)
    (tbl : Table) (st2 : ChunkState) (log : CallLog)
    (h : process_with_chunks c st fp file cb = .ok (tbl, st2, log)) :
    mapE processRow file = .ok tbl := by
  by_cases hc : c = 0
  · subst hc
    simp [process_with_chunks] at h
  · by_cases hne : file = []
    · subst hne
      simp [process_with_chunks, if_neg hc, chunksOf, chunksOfAux, runChunks,
        concatTables] at h
    · have hm := pwc_table c st fp file cb hc hne
      rw [h] at hm
      exact hm.symm

lemma pwc_ok_all (c : Nat) (st : ChunkState) (fp : String) (file : List Row) (cb : Bool)
    (hc : c ≠ 0) (hne : file ≠ []) (hwf : ∀ r ∈ file, exOk (processRow r) = true) :
    ∃ tbl, process_with_chunks c st fp file cb =
        .ok (tbl,
             ⟨st.processed_chunks + (chunksOf c file).length, st.total_rows + file.length⟩,
             if cb then logSpec 0 st.total_rows (chunksOf c file) else []) ∧
      mapE processRow file = .ok tbl := by
  have hrows : ∀ r ∈ (chunksOf c file).flatten, exOk (processRow r) = true := by
    rw [chunksOf_flatten]; exact hwf
  obtain ⟨tbls, hrun, hf2⟩ := runChunks_ok_all cb (chunksOf c file) 0 st hrows
  have hsum : ((chunksOf c file).map List.length).sum = file.length := by
    rw [← List.length_flatten, chunksOf_flatten]
  have hmap := runChunks_flatten cb (chunksOf c file) 0 st
  rw [chunksOf_flatten, hrun] at hmap
  refine ⟨tbls.flatten, ?_, hmap.symm⟩
  unfold process_with_chunks
  rw [if_neg hc, hrun, hsum]
  cases tbls with
  | nil =>
    have h0 : (chunksOf c file).length = 0 := hf2.length_eq
    exact absurd (List.length_eq_zero.mp h0) (chunksOf_ne c file hne)
  | cons t ts => rfl

lemma pwc_false_log (c : Nat) (st : ChunkState) (fp : String) (file : List Row)
    (tbl : Table) (st2 : ChunkState) (log : CallLog)
    (h : process_with_chunks c st fp file false = .ok (tbl, st2, log)) : log = [] := by
  by_cases hc : c = 0
  · subst hc
    simp [process_with_chunks] at h
  · unfold process_with_chunks at h
    rw [if_neg hc] at h
    cases hr : runChunks false (chunksOf c file) 0 st with
    | error e => rw [hr] at h; exact Except.noConfusion h
    | ok tri =>
      obtain ⟨tbls, stF, lg⟩ := tri
      rw [hr] at h
      replace h : (match concatTables tbls with
        | Except.error e => (Except.error e : Except ProcError (Table × ChunkState × CallLog))
        | Except.ok tb => Except.ok (tb, stF, lg)) = Except.ok (tbl, st2, log) := h
      cases hco : concatTables tbls with
      | error e => rw [hco] at h; exact Except.noConfusion h
      | ok tb =>
        rw [hco] at h
        injection h with h
        have hlog : log = lg := by
          have := congrArg (fun p => p.2.2) h
          simpa using this.symm
        rw [hlog]
        exact runChunks_false_log (chunksOf c file) 0 st tbls stF lg hr

/-! ### Concrete sample data (rows of a twcs-style support export) -/

/-- A raw row as read from the CSV: all cells are strings. -/
def sampleRawRow : Row :=
  [("tweet_id", .s "1"), ("author_id", .s "sprintcare"),
   ("created_at", .s "20171031"), ("text", .s "@user hi")]

/-- The row the chunk loop produces from `sampleRawRow`. -/
def sampleProcessedRow : Row :=
  [("tweet_id", .s "1"), ("author_id", .s "sprintcare"),
   ("created_at", .ts 20171031), ("text", .s "@user hi"), ("clean_text", .s "hi")]

/-- A row whose timestamp does not parse. -/
def badRow : Row := [("created_at", .s "not a date"), ("text", .s "x")]

/-- A row that processes successfully. -/
def goodRow : Row := [("created_at", .s "7"), ("text", .s "ok")]

/-- The row the chunk loop produces from `goodRow`. -/
def procGoodRow : Row :=
  [("created_at", .ts 7), ("text", .s "ok"), ("clean_text", .s "ok")]

/-- The callback trace observed by the caller of a processing call: the
argument tuples the progress callback was invoked with on a successful call
(an aborted call returns no value to the caller). -/
def callbackTrace (r : Except ProcError (Table × ChunkState × CallLog)) : CallLog :=
  match r with
  | .ok x => x.2.2
  | .error _ => []

/-! ### Claim theorems -/

/-- C1 (amended): for every well-formed delimited file with R ≥ 1 rows and
every chunk size C ≥ 1, the chunked reading path returns a table whose rows
are exactly the processed versions of the input rows, in input order —
exactly R processed rows, regardless of C.  (The amendment: R ≥ 1; a
well-formed file with zero data rows raises instead, see the
counterexample.) -/
theorem c1_chunked_read_preserves_rows (c : Nat) (st : ChunkState) (fp : String)
    (cb : Bool) (file : List Row) (hc : 1 ≤ c) (hne : file ≠ [])
    (hwf : ∀ r ∈ file, exOk (processRow r) = true) :
    ∃ tbl st2 log, process_with_chunks c st fp file cb = .ok (tbl, st2, log) ∧
      List.Forall₂ (fun raw proc => processRow raw = .ok proc) file tbl ∧
      tbl.length = file.length := by
  obtain ⟨tbl, hp, hm⟩ := pwc_ok_all c st fp file cb (by omega) hne hwf
  have hf := (mapE_forall₂ processRow file tbl).mp hm
  exact ⟨tbl, _, _, hp, hf, hf.length_eq.symm⟩

/-- C1 witness: a one-row file with chunk size 1. -/
theorem c1_chunked_witness :
    ∃ tbl st2 log,
      process_with_chunks 1 ⟨0, 0⟩ "twcs.csv" [goodRow] true = .ok (tbl, st2, log) ∧
      List.Forall₂ (fun raw proc => processRow raw = .ok proc) [goodRow] tbl ∧
      tbl.length = [goodRow].length :=
  c1_chunked_read_preserves_rows 1 ⟨0, 0⟩ "twcs.csv" true [goodRow]
    (by decide) (by decide) (by decide)

/-- C1 counterexample: a well-formed file with zero data rows (every row of
the empty file trivially processes) does not yield an empty table — the
chunked path raises `pd.concat`'s "no objects to concatenate" error, so the
claim fails at R = 0. -/
theorem c1_zero_rows_counterexample :
    (∀ r ∈ ([] : List Row), exOk (processRow r) = true) ∧
    process_with_chunks 1 ⟨0, 0⟩ "twcs.csv" [] true = .error .concatError :=
  ⟨by simp, rfl⟩

/-- C2: fallback transparency — when the file size exceeds 100 MB and the
distributed attempt raises, `process_large_csv` returns exactly what the
chunked path returns on the same file (callback absent, as in the fallback
call), and any successful result contains each input row's processed
version exactly once, in order: no loss, no duplicates. -/
theorem c2_fallback_transparency (envOk : Bool) (sizeMB c : Nat) (st : ChunkState)
    (fp : String) (file : List Row) (cb : Bool) (hsize : 100 < sizeMB)
    (hfail : ∃ e, daskAttempt envOk file = .error e) :
    process_large_csv envOk sizeMB c st fp file cb =
      process_with_chunks c st fp file false ∧
    ∀ tbl st2 log, process_large_csv envOk sizeMB c st fp file cb = .ok (tbl, st2, log) →
      List.Forall₂ (fun raw proc => processRow raw = .ok proc) file tbl ∧
      tbl.length = file.length := by
  obtain ⟨e, he⟩ := hfail
  have h1 : process_large_csv envOk sizeMB c st fp file cb =
      process_with_chunks c st fp file false := by
    unfold process_large_csv process_with_dask
    rw [if_pos hsize, he]
  refine ⟨h1, ?_⟩
  intro tbl st2 log h
  rw [h1] at h
  have hf := (mapE_forall₂ processRow file tbl).mp
    (pwc_ok_inv c st fp file false tbl st2 log h)
  exact ⟨hf, hf.length_eq.symm⟩

/-- C2 witness: distributed environment down on a 101 MB one-row file. -/
theorem c2_fallback_witness :
    process_large_csv false 101 1 ⟨0, 0⟩ "big.csv" [goodRow] true =
      process_with_chunks 1 ⟨0, 0⟩ "big.csv" [goodRow] false ∧
    List.Forall₂ (fun raw proc => processRow raw = .ok proc) [goodRow] [procGoodRow] := by
  have h := c2_fallback_transparency false 101 1 ⟨0, 0⟩ "big.csv" [goodRow] true
    (by decide) ⟨.daskError "cluster unavailable", rfl⟩
  exact ⟨h.1, (h.2 [procGoodRow] ⟨1, 1⟩ [] (by rw [h.1]; rfl)).1⟩

/-- C3: the pipeline's processed records carry only the raw columns, the
parsed `created_at` and the appended `clean_text` — no urgency score, no
frustration score, no sentiment score, no response category — although the
analytics page of src/app.py reads `data['urgency_score']`,
`data['sentiment_score']` and `data['response_category']` from exactly this
output.  Evaluation of the chunked path at a concrete raw row. -/
theorem c3_no_derived_fields :
    process_with_chunks 10000 ⟨0, 0⟩ "twcs.csv" [sampleRawRow] false =
      .ok ([sampleProcessedRow], ⟨1, 1⟩, []) ∧
    colNames sampleProcessedRow =
      ["tweet_id", "author_id", "created_at", "text", "clean_text"] ∧
    ¬ "urgency_score" ∈ colNames sampleProcessedRow ∧
    ¬ "frustration_score" ∈ colNames sampleProcessedRow ∧
    ¬ "sentiment_score" ∈ colNames sampleProcessedRow ∧
    ¬ "response_category" ∈ colNames sampleProcessedRow := by
  refine ⟨rfl, rfl, ?_, ?_, ?_, ?_⟩ <;> decide

/-- C4 counterexample: on missing text (NaN) the normalization column is
NaN, not the empty string — pandas `.str` methods propagate missing values,
they do not coerce them to `""`. -/
theorem c4_missing_text_counterexample :
    processRow [("created_at", Val.s "1"), ("text", Val.na)] =
      .ok [("created_at", Val.ts 1), ("text", Val.na), ("clean_text", Val.na)] ∧
    Val.na ≠ Val.s "" :=
  ⟨rfl, by decide⟩

/-- C4 (amended): the normalizer removes every mention token (no residual
`@` followed by a word character), leaves no leading or trailing whitespace,
maps empty text to the empty string, and never fails; missing text
propagates as missing (NaN), it is not converted to an empty string. -/
theorem c4_normalizer_props (s : String) :
    NoMention (cleanText s).data ∧ noEdgeWs (cleanText s).data = true ∧
    cleanText "" = "" ∧ cleanVal Val.na = Val.na := by
  refine ⟨?_, ?_, rfl, rfl⟩
  · show NoMention (stripChars (removeM s.data))
    exact nm_strip _ (removeM_nm s.data)
  · unfold noEdgeWs
    rw [Bool.and_eq_true]
    constructor
    · cases hh : (cleanText s).data.head? with
      | none => rfl
      | some c =>
        have hc : isWs c = false := stripChars_head (removeM s.data) c hh
        simp [Option.all, hh, hc]
    · cases hh : (cleanText s).data.reverse.head? with
      | none => rfl
      | some c =>
        have hc : isWs c = false := stripChars_revHead (removeM s.data) c hh
        simp [Option.all, hh, hc]

/-- C5 (amended): on a successful chunked call the callback fires exactly
once per chunk, in ascending index order 0,1,2,…, with arguments
(chunk index, chunk row count, cumulative row count); the cumulative counts
are strictly increasing, and after the final call the cumulative count
equals the instance's `total_rows` counter on entry plus R — it equals R
itself only when that counter starts at zero, because the counter persists
across calls on the same `LargeFileProcessor`. -/
theorem c5_callback_trace (c : Nat) (st : ChunkState) (fp : String) (file : List Row)
    (hc : 1 ≤ c) (hne : file ≠ []) (hwf : ∀ r ∈ file, exOk (processRow r) = true) :
    ∃ tbl st2 log, process_with_chunks c st fp file true = .ok (tbl, st2, log) ∧
      log = logSpec 0 st.total_rows (chunksOf c file) ∧
      log.length = (chunksOf c file).length ∧
      log.map (fun e => e.1) = List.range' 0 (chunksOf c file).length ∧
      log.map (fun e => e.2.1) = (chunksOf c file).map List.length ∧
      List.Chain' (fun a b : Nat × Nat × Nat => a.2.2 < b.2.2) log ∧
      ∃ k m, myLast log = some (k, m, st.total_rows + file.length) := by
  obtain ⟨tbl, hp, _⟩ := pwc_ok_all c st fp file true (by omega) hne hwf
  have hp' : process_with_chunks c st fp file true =
      .ok (tbl,
           ⟨st.processed_chunks + (chunksOf c file).length, st.total_rows + file.length⟩,
           logSpec 0 st.total_rows (chunksOf c file)) := hp
  have hsum : ((chunksOf c file).map List.length).sum = file.length := by
    rw [← List.length_flatten, chunksOf_flatten]
  obtain ⟨k, m, hk⟩ := logSpec_last (chunksOf c file) 0 st.total_rows
    (chunksOf_ne c file hne)
  refine ⟨tbl, _, logSpec 0 st.total_rows (chunksOf c file), hp', rfl,
    logSpec_len _ _ _, logSpec_fst _ _ _, logSpec_snd _ _ _, ?_, k, m, ?_⟩
  · exact (logSpec_chain (chunksOf c file) 0 st.total_rows (chunksOf_mem_ne c file)).1
  · rw [hk, hsum]

/-- C5 witness: one-row file, fresh counters, chunk size 1. -/
theorem c5_callback_witness :
    ∃ tbl st2 log,
      process_with_chunks 1 ⟨0, 0⟩ "twcs.csv" [goodRow] true = .ok (tbl, st2, log) ∧
      log = logSpec 0 (0 : Nat) (chunksOf 1 [goodRow]) ∧
      log.length = (chunksOf 1 [goodRow]).length ∧
      log.map (fun e => e.1) = List.range' 0 (chunksOf 1 [goodRow]).length ∧
      log.map (fun e => e.2.1) = (chunksOf 1 [goodRow]).map List.length ∧
      List.Chain' (fun a b : Nat × Nat × Nat => a.2.2 < b.2.2) log ∧
      ∃ k m, myLast log = some (k, m, 0 + [goodRow].length) :=
  c5_callback_trace 1 ⟨0, 0⟩ "twcs.csv" [goodRow] (by decide) (by decide) (by decide)

/-- C5 counterexample: the counters persist across calls on the same
instance, so for the second chunked call the final cumulative row count is
2, not R = 1 — refuting "equals R after the final call" for an arbitrary
chunked processing call. -/
theorem c5_state_counterexample :
    process_with_chunks 1 ⟨0, 0⟩ "a.csv" [goodRow] true =
      .ok ([procGoodRow], ⟨1, 1⟩, [(0, 1, 1)]) ∧
    process_with_chunks 1 ⟨1, 1⟩ "b.csv" [goodRow] true =
      .ok ([procGoodRow], ⟨2, 2⟩, [(0, 1, 2)]) ∧
    myLast [(0, 1, 2)] = some (0, 1, 2) ∧
    ((0, 1, 2) : Nat × Nat × Nat).2.2 ≠ ([goodRow] : List Row).length :=
  ⟨rfl, rfl, rfl, by decide⟩

/-- C6 (amended): concatenating zero processed chunks raises (`pd.concat`
with no objects), so a file with zero data rows makes the chunked call
raise rather than return an empty table with the expected columns. -/
theorem c6_zero_chunks_raises (c : Nat) (st : ChunkState) (fp : String) (cb : Bool)
    (hc : 1 ≤ c) : process_with_chunks c st fp [] cb = .error .concatError := by
  unfold process_with_chunks
  rw [if_neg (by omega)]
  rfl

/-- C6 witness: chunk size 1. -/
theorem c6_zero_chunks_witness :
    process_with_chunks 1 ⟨0, 0⟩ "empty.csv" [] false = .error .concatError :=
  c6_zero_chunks_raises 1 ⟨0, 0⟩ "empty.csv" false (by decide)

/-- C6 counterexample: the assembler raises on zero chunks instead of
returning an empty table. -/
theorem c6_zero_chunks_counterexample :
    concatTables [] = .error .concatError ∧
    process_with_chunks 10000 ⟨0, 0⟩ "twcs.csv" [] true = .error .concatError :=
  ⟨rfl, rfl⟩

/-- C7 (amended): a row that fails to parse in any chunk aborts the whole
chunked call with an error and no partial output is returned; but the
surfaced error is the underlying parse error only — one and the same error
value for every chunk size, file path, counter state and callback choice,
so it identifies neither the file nor the chunk index. -/
theorem c7_parse_error_aborts (file : List Row)
    (hbad : file.all (fun r => exOk (processRow r)) = false) :
    ∃ e, ∀ c st fp cb, 1 ≤ c → process_with_chunks c st fp file cb = .error e := by
  obtain ⟨e, he⟩ := mapE_err_of_bad processRow file hbad
  refine ⟨e, ?_⟩
  intro c st fp cb hc
  have hne : file ≠ [] := by
    intro h0
    subst h0
    simp at hbad
  have h := pwc_table c st fp file cb (by omega) hne
  rw [he] at h
  cases hp : process_with_chunks c st fp file cb with
  | error e2 =>
    rw [hp] at h
    have h2 : (Except.error e2 : Except ProcError Table) = Except.error e := h
    injection h2 with h2
    rw [h2]
  | ok tri =>
    rw [hp] at h
    have h2 : (Except.ok tri.1 : Except ProcError Table) = Except.error e := h
    exact Except.noConfusion h2

/-- C7 witness: a one-row file with an unparseable timestamp. -/
theorem c7_parse_error_witness :
    ∃ e, process_with_chunks 1 ⟨0, 0⟩ "twcs.csv" [badRow] true = .error e := by
  obtain ⟨e, he⟩ := c7_parse_error_aborts [badRow] (by decide)
  exact ⟨e, he 1 ⟨0, 0⟩ "twcs.csv" true (by decide)⟩

/-- C7 counterexample: the same unparseable value failing in chunk 0 of
"a.csv" and in chunk 3 of "b.csv" surfaces the identical error value, so
the raised parsing error identifies neither the file nor the chunk index
(the log line "Chunk processing failed" carries neither either). -/
theorem c7_error_context_counterexample :
    process_with_chunks 1 ⟨0, 0⟩ "a.csv" [badRow] true =
      .error (.parseError "not a date") ∧
    process_with_chunks 1 ⟨0, 0⟩ "b.csv" [goodRow, goodRow, goodRow, badRow] true =
      .error (.parseError "not a date") :=
  ⟨rfl, rfl⟩

/-- C8: the urgency and frustration score calculators return 0 on empty and
on missing text, and, being total functions, cannot throw.  (The calculators
are absent from the repository — only called from src/app.py — and are
modelled from the spec.) -/
theorem c8_scores_empty_zero :
    calculate_urgency_score (some "") = 0 ∧
    calculate_frustration_score (some "") = 0 ∧
    calculate_urgency_score none = 0 ∧
    calculate_frustration_score none = 0 := by
  decide

/-- C9: the text normalizer is idempotent — normalizing already-normalized
text changes nothing. -/
theorem c9_normalizer_idempotent (s : String) : cleanText (cleanText s) = cleanText s := by
  show String.mk (stripChars (removeM (stripChars (removeM s.data)))) = _
  have h1 : NoMention (stripChars (removeM s.data)) := nm_strip _ (removeM_nm s.data)
  rw [removeM_id _ h1, stripChars_idem]
  rfl

/-- C10: for a file whose measured size exceeds 100 MB the caller-supplied
progress callback is never invoked: the distributed path does not accept
it, and its fallback calls the chunked reader without passing it, so the
observed callback trace is empty. -/
theorem c10_no_progress_large (envOk : Bool) (sizeMB c : Nat) (st : ChunkState)
    (fp : String) (file : List Row) (cb : Bool) (hsize : 100 < sizeMB) :
    callbackTrace (process_large_csv envOk sizeMB c st fp file cb) = [] := by
  unfold process_large_csv
  rw [if_pos hsize]
  unfold process_with_dask
  cases hd : daskAttempt envOk file with
  | ok t => rfl
  | error e =>
    cases hp : process_with_chunks c st fp file false with
    | error e2 => rfl
    | ok tri =>
      obtain ⟨tbl, st2, log⟩ := tri
      show log = []
      exact pwc_false_log c st fp file tbl st2 log hp

/-- C10 witness: a 101 MB one-row file with the distributed environment
down and a callback supplied. -/
theorem c10_no_progress_witness :
    callbackTrace (process_large_csv false 101 1 ⟨0, 0⟩ "big.csv" [goodRow] true) = [] :=
  c10_no_progress_large false 101 1 ⟨0, 0⟩ "big.csv" [goodRow] true (by decide)

end CSA
